import Mathlib

/-!
# Verification of the paysage latent-model core (`paysage/models/hidden.py`)

This file embeds the mathematical core of the paysage two-layer
energy-based-model toolkit: the abstract iteration engine `LatentModel`
and the per-model field/energy computations of
`RestrictedBoltzmannMachine`, `HopfieldModel` and
`GaussianRestrictedBoltzmannMachine`.

Tensors are embedded per example: a visible configuration is a function
`Fin nvis → ℚ`, a weight matrix is `Matrix (Fin nvis) (Fin nhid) ℚ`.
The backend primitives (`be.dot`, `be.batch_dot`, ...) are external
collaborators of the core; they are modelled from the spec as the plain
linear-algebra operations the spec names, written as explicit sums.
The iteration drivers are embedded over an explicit list-of-cells heap so
that aliasing and mutation of caller-supplied tensors are observable, and
the stochastic sampling primitives are deterministic functions of their
inputs and an explicitly threaded random state.
-/

/-- Modelled from the spec: the backend matrix product `be.dot` applied to a
(per-example) vector and a matrix, giving a vector indexed by columns. -/
def bdotVM {n m : ℕ} (v : Fin n → ℚ) (M : Matrix (Fin n) (Fin m) ℚ) : Fin m → ℚ :=
  fun j => ∑ i, v i * M i j

/-- Modelled from the spec: the backend matrix product `be.dot` applied to two
matrices. -/
def bdotMM {n m k : ℕ} (A : Matrix (Fin n) (Fin m) ℚ) (B : Matrix (Fin m) (Fin k) ℚ) :
    Matrix (Fin n) (Fin k) ℚ :=
  fun i l => ∑ j, A i j * B j l

/-- Modelled from the spec: the backend dot product `be.dot` of two vectors. -/
def bdotVV {n : ℕ} (v w : Fin n → ℚ) : ℚ :=
  ∑ i, v i * w i

/-- Modelled from the spec: the backend batched bilinear contraction
`be.batch_dot(v, M, w)`, per example: `v·M·w`. -/
def batch_dot {n m : ℕ} (v : Fin n → ℚ) (M : Matrix (Fin n) (Fin m) ℚ) (w : Fin m → ℚ) : ℚ :=
  ∑ i, ∑ j, v i * M i j * w j

/-- The optional inverse temperature `beta` as the Python code can receive it:
absent (`None`), a Python scalar, or a numpy array (per example a scalar after
broadcasting against the batch dimension).  The distinction between the last
two matters because `GaussianRestrictedBoltzmannMachine` tests
`isinstance(beta, numpy.ndarray)` while the other two models test
`beta is not None`. -/
inductive BetaArg where
  | noBeta : BetaArg
  | scalar (b : ℚ) : BetaArg
  | array (b : ℚ) : BetaArg
deriving DecidableEq, Repr

/-- Embedding of `RestrictedBoltzmannMachine._hidden_field(visible, beta)`:
`result = be.dot(visible, W); if beta is not None: result *= beta;
result += hidden_bias`. -/
def RBM_hidden_field {nv nh : ℕ} (W : Matrix (Fin nv) (Fin nh) ℚ) (hidden_bias : Fin nh → ℚ)
    (visible : Fin nv → ℚ) (beta : BetaArg) : Fin nh → ℚ :=
  let result := bdotVM visible W
  let result := match beta with
    | .noBeta => result
    | .scalar b => fun j => result j * b
    | .array b => fun j => result j * b
  fun j => result j + hidden_bias j

/-- Embedding of `RestrictedBoltzmannMachine._visible_field(hidden, beta)`:
`result = be.dot(hidden, W.T); if beta is not None: result *= beta;
result += visible_bias`. -/
def RBM_visible_field {nv nh : ℕ} (W : Matrix (Fin nv) (Fin nh) ℚ) (visible_bias : Fin nv → ℚ)
    (hidden : Fin nh → ℚ) (beta : BetaArg) : Fin nv → ℚ :=
  let result := bdotVM hidden (Matrix.transpose W)
  let result := match beta with
    | .noBeta => result
    | .scalar b => fun i => result i * b
    | .array b => fun i => result i * b
  fun i => result i + visible_bias i

/-- Embedding of `HopfieldModel.marginal_free_energy(visible, beta)`:
`J = be.dot(W, W.T); energy = -be.batch_dot(v, J, v);
if beta is not None: energy *= numpy.ravel(beta)**2;
energy -= be.dot(v, visible_bias)`. -/
def Hopfield_marginal_free_energy {nv nh : ℕ} (W : Matrix (Fin nv) (Fin nh) ℚ)
    (visible_bias : Fin nv → ℚ) (visible : Fin nv → ℚ) (beta : BetaArg) : ℚ :=
  let J := bdotMM W (Matrix.transpose W)
  let energy := -(batch_dot visible J visible)
  let energy := match beta with
    | .noBeta => energy
    | .scalar b => energy * b ^ 2
    | .array b => energy * b ^ 2
  energy - bdotVV visible visible_bias

/-- Embedding of `GaussianRestrictedBoltzmannMachine._hidden_field(visible, beta)`:
`scale = be.exp(visible_scale); result = be.dot(visible/scale, W);
if isinstance(beta, numpy.ndarray): result *= beta; result += hidden_bias`.
The backend elementwise exponential `be.exp` is an external collaborator and
is passed in as the function `eexp`. -/
def GRBM_hidden_field {nv nh : ℕ} (eexp : ℚ → ℚ) (W : Matrix (Fin nv) (Fin nh) ℚ)
    (hidden_bias : Fin nh → ℚ) (visible_scale : Fin nv → ℚ)
    (visible : Fin nv → ℚ) (beta : BetaArg) : Fin nh → ℚ :=
  let scale := fun i => eexp (visible_scale i)
  let result := bdotVM (fun i => visible i / scale i) W
  let result := match beta with
    | .array b => fun j => result j * b
    | _ => result
  fun j => result j + hidden_bias j

/-! ## The abstract iteration engine `LatentModel`

The drivers `markov_chain`, `mean_field_iteration` and
`deterministic_iteration` all have the shape

    new_vis = vis.astype(vis.dtype)      # a fresh copy of the caller's tensor
    for t in range(steps):
        new_vis = <step>(new_vis, beta)
    return new_vis

They are embedded over an explicit heap (a list of tensor cells, the caller's
tensor being one cell) so that aliasing and mutation are observable: the copy
and each step result are appended as fresh cells and no existing cell is ever
written.  The per-model step primitives never mutate their argument in the
source (`be.dot` allocates, the in-place `*=`/`+=` hit only that fresh
allocation), so they enter the embedding as pure functions of the tensor
value, the `beta` argument and — for the stochastic ones — an explicitly
threaded random state.  `steps` is an integer, and `range(steps)` runs
`steps.toNat` times (`range` of a non-positive integer is empty). -/

/-- Result of a stochastic driver: the final heap, the final random state and
the index of the cell holding the returned tensor. -/
structure ChainResult (Tv S : Type) where
  heap : List Tv
  rng : S
  out : ℕ
deriving DecidableEq, Repr

/-- Result of a deterministic driver: the final heap and the index of the cell
holding the returned tensor. -/
structure IterResult (Tv : Type) where
  heap : List Tv
  out : ℕ
deriving DecidableEq, Repr

/-- The tensor value a driver returns: the contents of its output cell. -/
def ChainResult.value {Tv S : Type} [Inhabited Tv] (r : ChainResult Tv S) : Tv :=
  r.heap.getD r.out default

/-- The tensor value a deterministic driver returns. -/
def IterResult.value {Tv : Type} [Inhabited Tv] (r : IterResult Tv) : Tv :=
  r.heap.getD r.out default

/-- Embedding of `LatentModel.mcstep(vis, beta)`: one full Gibbs step
`sample_visible(sample_hidden(vis, beta), beta)`, with the random state
threaded through the two sampling primitives. -/
def mcstep {Tv Th B S : Type} (sample_hidden : Tv → B → S → Th × S)
    (sample_visible : Th → B → S → Tv × S) (vis : Tv) (beta : B) (s : S) : Tv × S :=
  let hs := sample_hidden vis beta s
  sample_visible hs.1 beta hs.2

/-- The loop body of `markov_chain`: each iteration reads the current cell,
applies the step, and lets `new_vis` point at a freshly appended cell. -/
def chainLoop {Tv S : Type} [Inhabited Tv] (step : Tv → S → Tv × S) :
    ℕ → List Tv → S → ℕ → ChainResult Tv S
  | 0, heap, s, q => ⟨heap, s, q⟩
  | n + 1, heap, s, q =>
      let vs := step (heap.getD q default) s
      chainLoop step n (heap ++ [vs.1]) vs.2 heap.length

/-- Embedding of `LatentModel.markov_chain(vis, steps, beta)`: copy the caller's tensor
(`vis.astype(vis.dtype)` allocates a fresh array), then apply `mcstep`
`steps` times.  `p` is the cell holding the caller's tensor. -/
def markov_chain {Tv Th B S : Type} [Inhabited Tv] (sample_hidden : Tv → B → S → Th × S)
    (sample_visible : Th → B → S → Tv × S) (heap : List Tv) (rng : S) (p : ℕ)
    (steps : ℤ) (beta : B) : ChainResult Tv S :=
  chainLoop (fun v s => mcstep sample_hidden sample_visible v beta s) steps.toNat
    (heap ++ [heap.getD p default]) rng heap.length

/-- Embedding of `LatentModel.mean_field_step(vis, beta)`:
`visible_mean(hidden_mean(vis, beta), beta)`; both conditional expectations
are deterministic. -/
def mean_field_step {Tv Th B : Type} (hidden_mean : Tv → B → Th)
    (visible_mean : Th → B → Tv) (vis : Tv) (beta : B) : Tv :=
  visible_mean (hidden_mean vis beta) beta

/-- The loop body shared by `mean_field_iteration` and
`deterministic_iteration`: deterministic steps over fresh cells. -/
def iterLoop {Tv : Type} [Inhabited Tv] (step : Tv → Tv) :
    ℕ → List Tv → ℕ → IterResult Tv
  | 0, heap, q => ⟨heap, q⟩
  | n + 1, heap, q =>
      let v := step (heap.getD q default)
      iterLoop step n (heap ++ [v]) heap.length

/-- Embedding of `LatentModel.mean_field_iteration(vis, steps, beta)`. -/
def mean_field_iteration {Tv Th B : Type} [Inhabited Tv] (hidden_mean : Tv → B → Th)
    (visible_mean : Th → B → Tv) (heap : List Tv) (p : ℕ) (steps : ℤ) (beta : B) :
    IterResult Tv :=
  iterLoop (fun v => mean_field_step hidden_mean visible_mean v beta) steps.toNat
    (heap ++ [heap.getD p default]) heap.length

/-- Embedding of `LatentModel.deterministic_step(vis, beta)`:
`visible_mode(hidden_mode(vis, beta), beta)`; both mode (prox) operators are
deterministic. -/
def deterministic_step {Tv Th B : Type} (hidden_mode : Tv → B → Th)
    (visible_mode : Th → B → Tv) (vis : Tv) (beta : B) : Tv :=
  visible_mode (hidden_mode vis beta) beta

/-- Embedding of `LatentModel.deterministic_iteration(vis, steps, beta)`. -/
def deterministic_iteration {Tv Th B : Type} [Inhabited Tv] (hidden_mode : Tv → B → Th)
    (visible_mode : Th → B → Tv) (heap : List Tv) (p : ℕ) (steps : ℤ) (beta : B) :
    IterResult Tv :=
  iterLoop (fun v => deterministic_step hidden_mode visible_mode v beta) steps.toNat
    (heap ++ [heap.getD p default]) heap.length

/-- Pure value-level iteration of a stochastic step: what the chain of
reassignments `new_vis = step(new_vis)` computes, value-wise. -/
def stepIter {Tv S : Type} (step : Tv → S → Tv × S) : ℕ → Tv × S → Tv × S
  | 0, vs => vs
  | n + 1, vs => stepIter step n (step vs.1 vs.2)

/-- Pure value-level iteration of a deterministic step. -/
def pureIter {Tv : Type} (step : Tv → Tv) : ℕ → Tv → Tv
  | 0, v => v
  | n + 1, v => pureIter step n (step v)

/-! ## Constraint registration and initialization dispatch

`params`, `constraints` and the constraint mapping passed to
`add_constraints` are Python dicts; they are embedded as association lists
with distinct keys, with `dictInsert` playing the role of
`d[key] = value` (overwrite an existing key, else append). -/

/-- Python dict assignment `d[k] = v`: overwrite the entry for `k` if present,
otherwise append it. -/
def dictInsert {α : Type} (d : List (String × α)) (k : String) (v : α) :
    List (String × α) :=
  if k ∈ d.map Prod.fst then
    d.map (fun p => if p.1 = k then (k, v) else p)
  else
    d ++ [(k, v)]

/-- Python dict read `d[k]`: the value stored under key `k`. -/
def dictLookup {α : Type} (k : String) : List (String × α) → Option α
  | [] => none
  | p :: rest => if p.1 = k then some p.2 else dictLookup k rest

/-- Embedding of `LatentModel.add_constraints(cons)`:
`for key in cons: assert key in self.params; self.constraints[key] = cons[key]`.
The `assert` failure is the definition error of the spec; keys are processed
in order, so constraints registered before a failing key remain registered.
`params` enters as its list of keys. -/
def add_constraints {α : Type} (params : List String) (constraints : List (String × α)) :
    List (String × α) → Except Unit (List (String × α))
  | [] => .ok constraints
  | (k, c) :: rest =>
      if k ∈ params then
        add_constraints params (dictInsert constraints k c) rest
      else
        .error ()

/-- Outcome of `initialize(data, method)` as the code actually behaves.  The
code does `try: func = getattr(init, method) except AttributeError: print(...)`
and then unconditionally runs `func(data, self)`: when the lookup failed,
`func` was never bound, so the call raises `UnboundLocalError` — it does not
raise a `ConfigurationError`, although no initialization function runs and
`params` stays unchanged. -/
inductive InitOutcome (P : Type) where
  | ok (params : P) : InitOutcome P
  | unboundLocalError : InitOutcome P
  | configurationError : InitOutcome P
deriving DecidableEq

/-- Embedding of `initialize(data, method)` of the three concrete models (all three bodies
are identical): look `method` up in the initialization-function registry; on
success run it on `data` and the current `params` and then
`enforce_constraints`; on failure print a diagnostic and then crash with
`UnboundLocalError` at the call `func(data, self)`. -/
def initDispatch {D P : Type} (registry : List (String × (D → P → P)))
    (enforce : P → P) (data : D) (params : P) (method : String) : InitOutcome P :=
  match dictLookup method registry with
  | some func => .ok (enforce (func data params))
  | none => .unboundLocalError

/-! ## Helper lemmas about the loops -/

theorem getD_append_length {α : Type} [Inhabited α] (l : List α) (a : α) :
    (l ++ [a]).getD l.length default = a := by
  induction l with
  | nil => rfl
  | cons x xs ih => simp [ih]

theorem chainLoop_extends {Tv S : Type} [Inhabited Tv] (step : Tv → S → Tv × S)
    (n : ℕ) : ∀ (heap : List Tv) (s : S) (q : ℕ),
    ∃ t, (chainLoop step n heap s q).heap = heap ++ t := by
  induction n with
  | zero => intro heap s q; exact ⟨[], by simp [chainLoop]⟩
  | succ n ih =>
      intro heap s q
      obtain ⟨t, ht⟩ := ih (heap ++ [(step (heap.getD q default) s).1])
        (step (heap.getD q default) s).2 heap.length
      refine ⟨[(step (heap.getD q default) s).1] ++ t, ?_⟩
      simp only [chainLoop]
      rw [ht, List.append_assoc]

theorem chainLoop_out_ge {Tv S : Type} [Inhabited Tv] (step : Tv → S → Tv × S)
    (n : ℕ) : ∀ (heap : List Tv) (s : S) (q : ℕ),
    min q heap.length ≤ (chainLoop step n heap s q).out := by
  induction n with
  | zero => intro heap s q; simp [chainLoop]
  | succ n ih =>
      intro heap s q
      have h := ih (heap ++ [(step (heap.getD q default) s).1])
        (step (heap.getD q default) s).2 heap.length
      simp only [chainLoop]
      refine le_trans ?_ h
      simp only [List.length_append, List.length_singleton]
      omega

theorem chainLoop_value {Tv S : Type} [Inhabited Tv] (step : Tv → S → Tv × S)
    (n : ℕ) : ∀ (heap : List Tv) (v : Tv) (s : S),
    ((chainLoop step n (heap ++ [v]) s heap.length).value,
      (chainLoop step n (heap ++ [v]) s heap.length).rng) = stepIter step n (v, s) := by
  induction n with
  | zero =>
      intro heap v s
      simp [chainLoop, stepIter, ChainResult.value, getD_append_length]
  | succ n ih =>
      intro heap v s
      have hv : (heap ++ [v]).getD heap.length default = v := getD_append_length heap v
      have key := ih (heap ++ [v]) (step v s).1 (step v s).2
      simp only [chainLoop, hv, stepIter]
      simpa using key

theorem iterLoop_extends {Tv : Type} [Inhabited Tv] (step : Tv → Tv)
    (n : ℕ) : ∀ (heap : List Tv) (q : ℕ),
    ∃ t, (iterLoop step n heap q).heap = heap ++ t := by
  induction n with
  | zero => intro heap q; exact ⟨[], by simp [iterLoop]⟩
  | succ n ih =>
      intro heap q
      obtain ⟨t, ht⟩ := ih (heap ++ [step (heap.getD q default)]) heap.length
      refine ⟨[step (heap.getD q default)] ++ t, ?_⟩
      simp only [iterLoop]
      rw [ht, List.append_assoc]

theorem iterLoop_out_ge {Tv : Type} [Inhabited Tv] (step : Tv → Tv)
    (n : ℕ) : ∀ (heap : List Tv) (q : ℕ),
    min q heap.length ≤ (iterLoop step n heap q).out := by
  induction n with
  | zero => intro heap q; simp [iterLoop]
  | succ n ih =>
      intro heap q
      have h := ih (heap ++ [step (heap.getD q default)]) heap.length
      simp only [iterLoop]
      refine le_trans ?_ h
      simp only [List.length_append, List.length_singleton]
      omega

theorem iterLoop_value {Tv : Type} [Inhabited Tv] (step : Tv → Tv)
    (n : ℕ) : ∀ (heap : List Tv) (v : Tv),
    (iterLoop step n (heap ++ [v]) heap.length).value = pureIter step n v := by
  induction n with
  | zero =>
      intro heap v
      simp [iterLoop, pureIter, IterResult.value, getD_append_length]
  | succ n ih =>
      intro heap v
      have hv : (heap ++ [v]).getD heap.length default = v := getD_append_length heap v
      have key := ih (heap ++ [v]) (step v)
      simp only [iterLoop, hv, pureIter]
      simpa using key

theorem stepIter_add {Tv S : Type} (step : Tv → S → Tv × S) (n m : ℕ) :
    ∀ vs : Tv × S, stepIter step (n + m) vs = stepIter step m (stepIter step n vs) := by
  induction n with
  | zero => intro vs; simp [stepIter]
  | succ n ih =>
      intro vs
      have : n + 1 + m = (n + m) + 1 := by omega
      rw [this]
      simp only [stepIter]
      exact ih (step vs.1 vs.2)

theorem pureIter_fixed {Tv : Type} (step : Tv → Tv) (v : Tv) (h : step v = v) :
    ∀ n : ℕ, pureIter step n v = v := by
  intro n
  induction n with
  | zero => rfl
  | succ n ih => simpa [pureIter, h] using ih

/-! ## Helper lemmas about dict insertion and constraint registration -/

theorem mapOver_lookup_self {α : Type} (k : String) (v : α) :
    ∀ d : List (String × α), k ∈ d.map Prod.fst →
    dictLookup k (d.map (fun p => if p.1 = k then (k, v) else p)) = some v := by
  intro d
  induction d with
  | nil => intro h; simp at h
  | cons p rest ih =>
      intro h
      by_cases hp : p.1 = k
      · simp [dictLookup, hp]
      · have hm : k ∈ rest.map Prod.fst := by
          simp only [List.map_cons, List.mem_cons] at h
          tauto
        simp [dictLookup, if_neg hp, ih hm]

theorem append_lookup_self {α : Type} (k : String) (v : α) :
    ∀ d : List (String × α), k ∉ d.map Prod.fst →
    dictLookup k (d ++ [(k, v)]) = some v := by
  intro d
  induction d with
  | nil => intro _; simp [dictLookup]
  | cons p rest ih =>
      intro h
      have hp : p.1 ≠ k := by
        simp only [List.map_cons, List.mem_cons] at h
        tauto
      have hm : k ∉ rest.map Prod.fst := by
        simp only [List.map_cons, List.mem_cons] at h
        tauto
      simp [dictLookup, if_neg hp, ih hm]

theorem mapOver_lookup_ne {α : Type} (k k' : String) (v : α) (h : k' ≠ k) :
    ∀ d : List (String × α),
    dictLookup k' (d.map (fun p => if p.1 = k then (k, v) else p)) = dictLookup k' d := by
  intro d
  induction d with
  | nil => simp
  | cons p rest ih =>
      by_cases hp : p.1 = k
      · have h1 : k ≠ k' := fun e => h e.symm
        have h2 : p.1 ≠ k' := fun e => h (hp ▸ e).symm
        simp [dictLookup, hp, if_neg h1, if_neg h2, ih]
      · by_cases hpk : p.1 = k'
        · have hkk : ¬ (k' = k) := h
          simp [dictLookup, if_neg hp, hpk, if_neg hkk]
        · simp [dictLookup, if_neg hp, if_neg hpk, ih]

theorem append_lookup_ne {α : Type} (k k' : String) (v : α) (h : k' ≠ k) :
    ∀ d : List (String × α), dictLookup k' (d ++ [(k, v)]) = dictLookup k' d := by
  intro d
  induction d with
  | nil =>
      have hkk : k ≠ k' := fun e => h e.symm
      simp [dictLookup, hkk]
  | cons p rest ih =>
      by_cases hpk : p.1 = k'
      · simp [dictLookup, hpk]
      · simp [dictLookup, if_neg hpk, ih]

theorem dictInsert_lookup_self {α : Type} (d : List (String × α)) (k : String) (v : α) :
    dictLookup k (dictInsert d k v) = some v := by
  unfold dictInsert
  by_cases h : k ∈ d.map Prod.fst
  · rw [if_pos h]
    exact mapOver_lookup_self k v d h
  · rw [if_neg h]
    exact append_lookup_self k v d h

theorem dictInsert_lookup_ne {α : Type} (d : List (String × α)) (k k' : String) (v : α)
    (h : k' ≠ k) :
    dictLookup k' (dictInsert d k v) = dictLookup k' d := by
  unfold dictInsert
  by_cases hm : k ∈ d.map Prod.fst
  · rw [if_pos hm]
    exact mapOver_lookup_ne k k' v h d
  · rw [if_neg hm]
    exact append_lookup_ne k k' v h d

/-- When every key of `cons` is a known parameter name, `add_constraints`
succeeds and the final registry is the left fold of dict insertions. -/
theorem add_constraints_ok {α : Type} (params : List String) :
    ∀ (cons : List (String × α)) (c0 : List (String × α)),
    (∀ p ∈ cons, p.1 ∈ params) →
    add_constraints params c0 cons =
      .ok (cons.foldl (fun d p => dictInsert d p.1 p.2) c0) := by
  intro cons
  induction cons with
  | nil => intro c0 _; rfl
  | cons p rest ih =>
      intro c0 h
      have hp := h p (by simp)
      simp only [add_constraints, if_pos hp, List.foldl_cons]
      exact ih (dictInsert c0 p.1 p.2) (fun q hq => h q (by simp [hq]))

theorem foldl_dictInsert_lookup_not_mem {α : Type} :
    ∀ (cons : List (String × α)) (c0 : List (String × α)) (k : String),
    k ∉ cons.map Prod.fst →
    dictLookup k (cons.foldl (fun d p => dictInsert d p.1 p.2) c0) = dictLookup k c0 := by
  intro cons
  induction cons with
  | nil => intro c0 k _; rfl
  | cons p rest ih =>
      intro c0 k hk
      have h1 : k ∉ rest.map Prod.fst := by
        simp only [List.map_cons, List.mem_cons] at hk; tauto
      have h2 : k ≠ p.1 := by
        simp only [List.map_cons, List.mem_cons] at hk; tauto
      simp only [List.foldl_cons]
      rw [ih (dictInsert c0 p.1 p.2) k h1, dictInsert_lookup_ne c0 p.1 k p.2 h2]

theorem foldl_dictInsert_lookup {α : Type} :
    ∀ (cons : List (String × α)) (c0 : List (String × α)),
    (cons.map Prod.fst).Nodup →
    ∀ p ∈ cons, dictLookup p.1 (cons.foldl (fun d q => dictInsert d q.1 q.2) c0) = some p.2 := by
  intro cons
  induction cons with
  | nil => intro c0 _ p hp; simp at hp
  | cons q rest ih =>
      intro c0 hnd p hp
      have hnd' : (rest.map Prod.fst).Nodup := by
        simp only [List.map_cons, List.nodup_cons] at hnd; exact hnd.2
      have hq : q.1 ∉ rest.map Prod.fst := by
        simp only [List.map_cons, List.nodup_cons] at hnd; exact hnd.1
      rcases List.mem_cons.mp hp with he | hm
      · subst he
        simp only [List.foldl_cons]
        rw [foldl_dictInsert_lookup_not_mem rest (dictInsert c0 p.1 p.2) p.1 hq]
        exact dictInsert_lookup_self c0 p.1 p.2
      · simp only [List.foldl_cons]
        exact ih (dictInsert c0 q.1 q.2) hnd' p hm

/-- When some key of `cons` is unknown, `add_constraints` hits the failing
`assert`. -/
theorem add_constraints_bad_key {α : Type} (params : List String) :
    ∀ (cons : List (String × α)) (c0 : List (String × α)),
    (∃ p ∈ cons, p.1 ∉ params) →
    add_constraints params c0 cons = .error () := by
  intro cons
  induction cons with
  | nil => intro c0 h; simp at h
  | cons p rest ih =>
      intro c0 h
      by_cases hp : p.1 ∈ params
      · simp only [add_constraints, if_pos hp]
        refine ih (dictInsert c0 p.1 p.2) ?_
        obtain ⟨q, hq, hbad⟩ := h
        rcases List.mem_cons.mp hq with he | hm
        · exact absurd (he ▸ hp) hbad
        · exact ⟨q, hm, hbad⟩
      · simp only [add_constraints, if_neg hp]

/-! ## Claim theorems -/

/-- C1: For every visible tensor `v`, weight matrix `W` and visible bias
`b_v`, `HopfieldModel.marginal_free_energy(v, beta)` equals the closed form
`-v·J·v - v·b_v` with `J = W·Wᵗ` when `beta` is `None`, and the quadratic
term is multiplied by `beta²` when `beta` is given (scalar or array); the
computation is this closed form, with no numerical integration. -/
theorem hopfield_marginal_free_energy_closed_form {nv nh : ℕ}
    (W : Matrix (Fin nv) (Fin nh) ℚ) (bv v : Fin nv → ℚ) :
    Hopfield_marginal_free_energy W bv v .noBeta =
      -(Matrix.dotProduct v ((W * Matrix.transpose W).mulVec v)) - Matrix.dotProduct v bv
    ∧ (∀ b : ℚ, Hopfield_marginal_free_energy W bv v (.scalar b) =
      -(Matrix.dotProduct v ((W * Matrix.transpose W).mulVec v)) * b ^ 2
        - Matrix.dotProduct v bv)
    ∧ (∀ b : ℚ, Hopfield_marginal_free_energy W bv v (.array b) =
      -(Matrix.dotProduct v ((W * Matrix.transpose W).mulVec v)) * b ^ 2
        - Matrix.dotProduct v bv) := by
  have key : batch_dot v (bdotMM W (Matrix.transpose W)) v
      = Matrix.dotProduct v ((W * Matrix.transpose W).mulVec v) := by
    simp only [batch_dot, bdotMM, Matrix.dotProduct, Matrix.mulVec, Matrix.mul_apply,
      Matrix.transpose_apply]
    refine Finset.sum_congr rfl ?_
    intro i _
    conv_rhs => rw [Finset.mul_sum]
    exact Finset.sum_congr rfl (fun k _ => by ring)
  have keyb : bdotVV v bv = Matrix.dotProduct v bv := rfl
  refine ⟨?_, fun b => ?_, fun b => ?_⟩ <;>
    simp [Hopfield_marginal_free_energy, key, keyb]

/-- C2: For every visible tensor `v` and every non-`None` beta (scalar or
array), `RestrictedBoltzmannMachine`'s hidden natural-parameter field equals
`beta * (v·W) + b_h`: `beta` multiplies only the data-dependent bilinear term
and never the bias term; with `beta = None` the field is `v·W + b_h`. -/
theorem rbm_hidden_field_annealing {nv nh : ℕ} (W : Matrix (Fin nv) (Fin nh) ℚ)
    (bh : Fin nh → ℚ) (v : Fin nv → ℚ) :
    (∀ b : ℚ, RBM_hidden_field W bh v (.scalar b) =
        fun j => b * Matrix.dotProduct v (fun i => W i j) + bh j)
    ∧ (∀ b : ℚ, RBM_hidden_field W bh v (.array b) =
        fun j => b * Matrix.dotProduct v (fun i => W i j) + bh j)
    ∧ RBM_hidden_field W bh v .noBeta =
        fun j => Matrix.dotProduct v (fun i => W i j) + bh j := by
  refine ⟨fun b => ?_, fun b => ?_, ?_⟩ <;> funext j <;>
    simp [RBM_hidden_field, bdotVM, Matrix.dotProduct, mul_comm]

/-- C3 (counterexample): the claim that a non-`None` *scalar* beta multiplies
the data-dependent term of `GaussianRestrictedBoltzmannMachine._hidden_field`
is false: with `nvis = nhid = 1`, `W = [[1]]`, `b_h = 0`, `visible_scale = 0`
(so the backend exponential gives scale `1`), `v = [1]` and the Python scalar
`beta = 2`, the code returns field `1` (beta is silently ignored because it
fails the `isinstance(beta, numpy.ndarray)` test), not the claimed `2`. -/
theorem grbm_scalar_beta_dropped :
    ¬ (@GRBM_hidden_field 1 1 (fun _ => 1) (fun _ _ => 1) (fun _ => 0) (fun _ => 0)
        (fun _ => 1) (.scalar 2) =
      fun _ : Fin 1 =>
        2 * Matrix.dotProduct (fun _ : Fin 1 => (1:ℚ) / 1) (fun _ : Fin 1 => (1:ℚ)) + 0) := by
  intro h
  have h0 := congrFun h 0
  simp [GRBM_hidden_field, bdotVM, Matrix.dotProduct] at h0

/-- C3 (amended): for every visible tensor `v` and beta, the Gaussian RBM's
hidden field divides the visible units by `exp(visible_scale)` before the
contraction with `W`, and beta multiplies the resulting data-dependent term
(never the bias) exactly when beta is a numpy array; a non-array scalar beta
is silently ignored, giving the same field as `beta = None`. -/
theorem grbm_hidden_field_beta_array_only {nv nh : ℕ} (eexp : ℚ → ℚ)
    (W : Matrix (Fin nv) (Fin nh) ℚ) (bh : Fin nh → ℚ) (vscale v : Fin nv → ℚ) :
    (∀ b : ℚ, GRBM_hidden_field eexp W bh vscale v (.array b) =
        fun j => b * Matrix.dotProduct (fun i => v i / eexp (vscale i)) (fun i => W i j) + bh j)
    ∧ (∀ b : ℚ, GRBM_hidden_field eexp W bh vscale v (.scalar b) =
        GRBM_hidden_field eexp W bh vscale v .noBeta)
    ∧ GRBM_hidden_field eexp W bh vscale v .noBeta =
        fun j => Matrix.dotProduct (fun i => v i / eexp (vscale i)) (fun i => W i j) + bh j := by
  refine ⟨fun b => ?_, fun b => rfl, ?_⟩ <;> funext j <;>
    simp [GRBM_hidden_field, bdotVM, Matrix.dotProduct, mul_comm]

/-- The value and random state a `markov_chain` call returns are the pure
iteration of `mcstep` from the copied input value and the initial state. -/
theorem markov_chain_value {Tv Th B S : Type} [Inhabited Tv]
    (sh : Tv → B → S → Th × S) (sv : Th → B → S → Tv × S)
    (heap : List Tv) (rng : S) (p : ℕ) (steps : ℤ) (beta : B) :
    ((markov_chain sh sv heap rng p steps beta).value,
      (markov_chain sh sv heap rng p steps beta).rng)
    = stepIter (fun v s => mcstep sh sv v beta s) steps.toNat (heap.getD p default, rng) :=
  chainLoop_value _ steps.toNat heap (heap.getD p default) rng

/-- C4: For every visible tensor `v` (held in cell `p` of the heap) and every
beta, `markov_chain(v, 0, beta)` returns a tensor equal to `v` (identity at
zero steps) held in a freshly allocated cell, not an alias of the caller's
cell. -/
theorem markov_chain_zero_steps_copy {Tv Th B S : Type} [Inhabited Tv]
    (sh : Tv → B → S → Th × S) (sv : Th → B → S → Tv × S)
    (heap : List Tv) (rng : S) (p : ℕ) (beta : B) (hp : p < heap.length) :
    (markov_chain sh sv heap rng p 0 beta).value = heap.getD p default
    ∧ (markov_chain sh sv heap rng p 0 beta).out ≠ p := by
  constructor
  · simp [markov_chain, chainLoop, ChainResult.value, getD_append_length]
  · simp only [markov_chain, Int.toNat_zero, chainLoop]
    omega

theorem markov_chain_zero_steps_copy_witness :
    (markov_chain (fun (v : ℚ) (_ : Unit) (s : Unit) => (v, s))
        (fun (h : ℚ) (_ : Unit) (s : Unit) => (h, s)) [(3:ℚ)] () 0 0 ()).value
      = [(3:ℚ)].getD 0 default
    ∧ (markov_chain (fun (v : ℚ) (_ : Unit) (s : Unit) => (v, s))
        (fun (h : ℚ) (_ : Unit) (s : Unit) => (h, s)) [(3:ℚ)] () 0 0 ()).out ≠ 0 :=
  markov_chain_zero_steps_copy _ _ [(3:ℚ)] () 0 () (by decide)

/-- C5: For every visible tensor (cell `p`), all natural numbers `n` and `m`,
and every beta, running the chain `n + m` steps returns the same tensor value
as running `n` steps and then `m` more steps from the returned tensor, with
the sampling primitives deterministic functions of their inputs and the
threaded random state. -/
theorem markov_chain_composable {Tv Th B S : Type} [Inhabited Tv]
    (sh : Tv → B → S → Th × S) (sv : Th → B → S → Tv × S)
    (heap : List Tv) (rng : S) (p : ℕ) (n m : ℕ) (beta : B) :
    (markov_chain sh sv heap rng p ((n : ℤ) + (m : ℤ)) beta).value =
      (markov_chain sh sv
        (markov_chain sh sv heap rng p (n : ℤ) beta).heap
        (markov_chain sh sv heap rng p (n : ℤ) beta).rng
        (markov_chain sh sv heap rng p (n : ℤ) beta).out
        (m : ℤ) beta).value := by
  have hnm : ((n : ℤ) + (m : ℤ)).toNat = n + m := by omega
  have hn : ((n : ℤ)).toNat = n := by omega
  have hm : ((m : ℤ)).toNat = m := by omega
  have h1 := markov_chain_value sh sv heap rng p ((n : ℤ) + (m : ℤ)) beta
  have h2 := markov_chain_value sh sv heap rng p (n : ℤ) beta
  have h3 := markov_chain_value sh sv (markov_chain sh sv heap rng p (n : ℤ) beta).heap
    (markov_chain sh sv heap rng p (n : ℤ) beta).rng
    (markov_chain sh sv heap rng p (n : ℤ) beta).out (m : ℤ) beta
  rw [hnm] at h1
  rw [hn] at h2
  rw [hm] at h3
  have hv : (markov_chain sh sv heap rng p (n : ℤ) beta).heap.getD
      (markov_chain sh sv heap rng p (n : ℤ) beta).out default
      = (markov_chain sh sv heap rng p (n : ℤ) beta).value := rfl
  rw [hv, h2, ← stepIter_add] at h3
  exact congrArg Prod.fst (h1.trans h3.symm)

/-- C6: if `v*` (the tensor in cell `p`) is a fixed point of
`mean_field_step`, then `mean_field_iteration(v*, k, beta) = v*` for every
natural `k`; the analogous statement holds for `deterministic_step` and
`deterministic_iteration`. -/
theorem fixed_point_iterations {Tv Th B : Type} [Inhabited Tv]
    (hm : Tv → B → Th) (vm : Th → B → Tv) (hq : Tv → B → Th) (vq : Th → B → Tv)
    (heap : List Tv) (p : ℕ) (beta : B)
    (hmf : mean_field_step hm vm (heap.getD p default) beta = heap.getD p default)
    (hdt : deterministic_step hq vq (heap.getD p default) beta = heap.getD p default) :
    ∀ k : ℕ,
      (mean_field_iteration hm vm heap p (k : ℤ) beta).value = heap.getD p default
      ∧ (deterministic_iteration hq vq heap p (k : ℤ) beta).value = heap.getD p default := by
  intro k
  have hk : ((k : ℤ)).toNat = k := by omega
  constructor
  · show (iterLoop (fun v => mean_field_step hm vm v beta) ((k : ℤ)).toNat
      (heap ++ [heap.getD p default]) heap.length).value = heap.getD p default
    rw [hk, iterLoop_value]
    exact pureIter_fixed _ _ hmf k
  · show (iterLoop (fun v => deterministic_step hq vq v beta) ((k : ℤ)).toNat
      (heap ++ [heap.getD p default]) heap.length).value = heap.getD p default
    rw [hk, iterLoop_value]
    exact pureIter_fixed _ _ hdt k

theorem fixed_point_iterations_witness :
    (mean_field_iteration (fun (v : ℚ) (_ : Unit) => v) (fun (h : ℚ) (_ : Unit) => h)
        [(2:ℚ)] 0 (3 : ℤ) ()).value = [(2:ℚ)].getD 0 default
    ∧ (deterministic_iteration (fun (v : ℚ) (_ : Unit) => v) (fun (h : ℚ) (_ : Unit) => h)
        [(2:ℚ)] 0 (3 : ℤ) ()).value = [(2:ℚ)].getD 0 default :=
  fixed_point_iterations (fun (v : ℚ) (_ : Unit) => v) (fun (h : ℚ) (_ : Unit) => h)
    (fun (v : ℚ) (_ : Unit) => v) (fun (h : ℚ) (_ : Unit) => h) [(2:ℚ)] 0 () rfl rfl 3

/-- C7: none of the iteration drivers mutates any pre-existing heap cell — in
particular the caller-supplied tensor in cell `p` holds exactly the values it
held before — and each returns a newly allocated cell (index at or beyond the
old heap end). -/
theorem drivers_no_mutation {Tv Th B S : Type} [Inhabited Tv]
    (sh : Tv → B → S → Th × S) (sv : Th → B → S → Tv × S)
    (hmean : Tv → B → Th) (vmean : Th → B → Tv)
    (hmode : Tv → B → Th) (vmode : Th → B → Tv)
    (heap : List Tv) (rng : S) (p : ℕ) (steps : ℤ) (beta : B) :
    (∀ i, i < heap.length →
      (markov_chain sh sv heap rng p steps beta).heap.getD i default = heap.getD i default
      ∧ (mean_field_iteration hmean vmean heap p steps beta).heap.getD i default
          = heap.getD i default
      ∧ (deterministic_iteration hmode vmode heap p steps beta).heap.getD i default
          = heap.getD i default)
    ∧ heap.length ≤ (markov_chain sh sv heap rng p steps beta).out
    ∧ heap.length ≤ (mean_field_iteration hmean vmean heap p steps beta).out
    ∧ heap.length ≤ (deterministic_iteration hmode vmode heap p steps beta).out := by
  obtain ⟨t1, ht1⟩ := chainLoop_extends (fun v s => mcstep sh sv v beta s) steps.toNat
    (heap ++ [heap.getD p default]) rng heap.length
  obtain ⟨t2, ht2⟩ := iterLoop_extends (fun v => mean_field_step hmean vmean v beta) steps.toNat
    (heap ++ [heap.getD p default]) heap.length
  obtain ⟨t3, ht3⟩ := iterLoop_extends (fun v => deterministic_step hmode vmode v beta)
    steps.toNat (heap ++ [heap.getD p default]) heap.length
  have o1 := chainLoop_out_ge (fun v s => mcstep sh sv v beta s) steps.toNat
    (heap ++ [heap.getD p default]) rng heap.length
  have o2 := iterLoop_out_ge (fun v => mean_field_step hmean vmean v beta) steps.toNat
    (heap ++ [heap.getD p default]) heap.length
  have o3 := iterLoop_out_ge (fun v => deterministic_step hmode vmode v beta) steps.toNat
    (heap ++ [heap.getD p default]) heap.length
  simp only [markov_chain, mean_field_iteration, deterministic_iteration]
  refine ⟨?_, ?_, ?_, ?_⟩
  · intro i hi
    refine ⟨?_, ?_, ?_⟩
    · rw [ht1, List.append_assoc]
      exact List.getD_append _ _ _ _ hi
    · rw [ht2, List.append_assoc]
      exact List.getD_append _ _ _ _ hi
    · rw [ht3, List.append_assoc]
      exact List.getD_append _ _ _ _ hi
  · refine le_trans ?_ o1
    simp only [List.length_append, List.length_singleton]
    omega
  · refine le_trans ?_ o2
    simp only [List.length_append, List.length_singleton]
    omega
  · refine le_trans ?_ o3
    simp only [List.length_append, List.length_singleton]
    omega

theorem drivers_no_mutation_witness :
    (markov_chain (fun (v : ℚ) (_ : Unit) (s : Unit) => (v + 1, s))
        (fun (h : ℚ) (_ : Unit) (s : Unit) => (h, s)) [(5:ℚ)] () 0 2 ()).heap.getD 0 default
      = [(5:ℚ)].getD 0 default
    ∧ (mean_field_iteration (fun (v : ℚ) (_ : Unit) => v + 1) (fun (h : ℚ) (_ : Unit) => h)
        [(5:ℚ)] 0 2 ()).heap.getD 0 default = [(5:ℚ)].getD 0 default
    ∧ (deterministic_iteration (fun (v : ℚ) (_ : Unit) => v + 1) (fun (h : ℚ) (_ : Unit) => h)
        [(5:ℚ)] 0 2 ()).heap.getD 0 default = [(5:ℚ)].getD 0 default :=
  (drivers_no_mutation (fun (v : ℚ) (_ : Unit) (s : Unit) => (v + 1, s))
    (fun (h : ℚ) (_ : Unit) (s : Unit) => (h, s))
    (fun (v : ℚ) (_ : Unit) => v + 1) (fun (h : ℚ) (_ : Unit) => h)
    (fun (v : ℚ) (_ : Unit) => v + 1) (fun (h : ℚ) (_ : Unit) => h)
    [(5:ℚ)] () 0 2 ()).1 0 (by decide)

/-- C10: for every integer `steps ≤ 0` (including negative values), all three
iteration drivers run their loop zero times (Python `range` of a non-positive
integer is empty, so no error is raised) and return a copy of the input
tensor unchanged — negative step counts behave exactly like zero steps. -/
theorem drivers_nonpositive_steps {Tv Th B S : Type} [Inhabited Tv]
    (sh : Tv → B → S → Th × S) (sv : Th → B → S → Tv × S)
    (hmean : Tv → B → Th) (vmean : Th → B → Tv)
    (hmode : Tv → B → Th) (vmode : Th → B → Tv)
    (heap : List Tv) (rng : S) (p : ℕ) (steps : ℤ) (beta : B) (hsteps : steps ≤ 0) :
    (markov_chain sh sv heap rng p steps beta).value = heap.getD p default
    ∧ (mean_field_iteration hmean vmean heap p steps beta).value = heap.getD p default
    ∧ (deterministic_iteration hmode vmode heap p steps beta).value = heap.getD p default := by
  have h0 : steps.toNat = 0 := by omega
  refine ⟨?_, ?_, ?_⟩ <;>
    simp only [markov_chain, mean_field_iteration, deterministic_iteration, h0, chainLoop,
      iterLoop, ChainResult.value, IterResult.value] <;>
    exact getD_append_length heap _

theorem drivers_nonpositive_steps_witness :
    (markov_chain (fun (v : ℚ) (_ : Unit) (s : Unit) => (v + 1, s))
        (fun (h : ℚ) (_ : Unit) (s : Unit) => (h, s)) [(7:ℚ)] () 0 (-2) ()).value
      = [(7:ℚ)].getD 0 default
    ∧ (mean_field_iteration (fun (v : ℚ) (_ : Unit) => v + 1) (fun (h : ℚ) (_ : Unit) => h)
        [(7:ℚ)] 0 (-2) ()).value = [(7:ℚ)].getD 0 default
    ∧ (deterministic_iteration (fun (v : ℚ) (_ : Unit) => v + 1) (fun (h : ℚ) (_ : Unit) => h)
        [(7:ℚ)] 0 (-2) ()).value = [(7:ℚ)].getD 0 default :=
  drivers_nonpositive_steps (fun (v : ℚ) (_ : Unit) (s : Unit) => (v + 1, s))
    (fun (h : ℚ) (_ : Unit) (s : Unit) => (h, s))
    (fun (v : ℚ) (_ : Unit) => v + 1) (fun (h : ℚ) (_ : Unit) => h)
    (fun (v : ℚ) (_ : Unit) => v + 1) (fun (h : ℚ) (_ : Unit) => h)
    [(7:ℚ)] () 0 (-2) () (by decide)

/-- C8: if some key of the mapping passed to `add_constraints` is not a known
parameter name, the call fails (the `assert` — the spec's DefinitionError);
if every key is known, the call succeeds and every named constraint is
registered under its key. -/
theorem add_constraints_key_check {α : Type} (params : List String)
    (c0 cons : List (String × α)) :
    ((∃ p ∈ cons, p.1 ∉ params) → add_constraints params c0 cons = .error ())
    ∧ ((cons.map Prod.fst).Nodup → (∀ p ∈ cons, p.1 ∈ params) →
        ∃ d, add_constraints params c0 cons = .ok d
          ∧ ∀ p ∈ cons, dictLookup p.1 d = some p.2) := by
  constructor
  · exact add_constraints_bad_key params cons c0
  · intro hnd hall
    exact ⟨cons.foldl (fun d p => dictInsert d p.1 p.2) c0,
      add_constraints_ok params cons c0 hall,
      foldl_dictInsert_lookup cons c0 hnd⟩

theorem add_constraints_key_check_witness :
    add_constraints ["weights", "visible_bias"] ([] : List (String × String))
      [("momentum", "norm")] = .error ()
    ∧ ∃ d, add_constraints ["weights", "visible_bias"] ([] : List (String × String))
        [("weights", "l2")] = .ok d
      ∧ ∀ p ∈ [("weights", "l2")], dictLookup p.1 d = some p.2 :=
  ⟨(add_constraints_key_check ["weights", "visible_bias"] [] [("momentum", "norm")]).1
      ⟨("momentum", "norm"), by decide, by decide⟩,
    (add_constraints_key_check ["weights", "visible_bias"] [] [("weights", "l2")]).2
      (by decide) (by decide)⟩

/-- C9 (actual code behavior at the failing input): calling `initialize` with
a method name absent from the initialization registry does not raise a
`ConfigurationError` — after printing a diagnostic the code still executes
`func(data, self)` with `func` never bound, crashing with
`UnboundLocalError`.  No initialization function is invoked and `params` is
left unchanged (the outcome carries no parameter state), but the claimed
clean `ConfigurationError` never happens. -/
theorem init_unknown_method_unbound :
    initDispatch [("hinton", fun (_ : ℚ) (p : ℚ) => p)] id 0 7 "bogus"
      = InitOutcome.unboundLocalError
    ∧ initDispatch [("hinton", fun (_ : ℚ) (p : ℚ) => p)] id 0 7 "bogus"
      ≠ InitOutcome.configurationError := by
  refine ⟨rfl, ?_⟩
  intro h
  simp [initDispatch, dictLookup] at h
